import Mathlib

/-!
Verification of the semantic-model utility layer and the language-server
event handlers of the ui5-language-assistant repository.

JavaScript strings are embedded as `List Char` (`JsString`); JavaScript
plain objects created with `Object.create(null)` (the `newMap` pattern)
are embedded as `JsRecord`: an association list of own entries plus a
flag recording whether the object carries the generic object prototype.
Asynchronous handler behaviour is embedded as a set of event traces.
-/

/-- A JavaScript string, embedded as its list of characters. -/
abbrev JsString := List Char

/-- Embedding of `getParentFqn` (server.ts utility layer):
`if (!isEmpty(fqn) && fqn.endsWith("." + name)) return fqn.substring(0, fqn.length - (name.length + 1)); return undefined;`.
`isEmpty` is lodash emptiness (for a string: length 0), `endsWith` is the
suffix test, and `substring(0, k)` keeps the first `k` characters. -/
def getParentFqn (fqn name : JsString) : Option JsString :=
  if !fqn.isEmpty && ('.' :: name).isSuffixOf fqn then
    some (fqn.take (fqn.length - (name.length + 1)))
  else
    none

/-- A JavaScript plain object with string keys: its own (enumerable) entries
in insertion order, plus a flag recording whether the object carries the
generic `Object.prototype` baseline. `Object.create(null)` yields an object
with `hasProto = false`. -/
structure JsRecord (α : Type) where
  entries : List (JsString × α)
  hasProto : Bool

/-- The member names inherited from the generic object prototype baseline. -/
def protoKeys : List JsString :=
  [ ['c', 'o', 'n', 's', 't', 'r', 'u', 'c', 't', 'o', 'r'],
    ['h', 'a', 's', 'O', 'w', 'n', 'P', 'r', 'o', 'p', 'e', 'r', 't', 'y'],
    ['i', 's', 'P', 'r', 'o', 't', 'o', 't', 'y', 'p', 'e', 'O', 'f'],
    ['p', 'r', 'o', 'p', 'e', 'r', 't', 'y', 'I', 's', 'E', 'n', 'u', 'm', 'e', 'r', 'a', 'b', 'l', 'e'],
    ['t', 'o', 'L', 'o', 'c', 'a', 'l', 'e', 'S', 't', 'r', 'i', 'n', 'g'],
    ['t', 'o', 'S', 't', 'r', 'i', 'n', 'g'],
    ['v', 'a', 'l', 'u', 'e', 'O', 'f'] ]

/-- Own-entry lookup: the value bound to `k` among the object's own entries. -/
def JsRecord.getOwn {α : Type} (m : JsRecord α) (k : JsString) : Option α :=
  (m.entries.find? (fun e => e.1 == k)).map (fun e => e.2)

/-- lodash `has(obj, key)`: an own-property check, never consulting the
prototype chain. -/
def JsRecord.has {α : Type} (m : JsRecord α) (k : JsString) : Bool :=
  (m.getOwn k).isSome

/-- JavaScript bracket access `obj[key]`: an own entry if present (`inl`),
else the inherited baseline member (`inr`) when the object has the generic
prototype and `key` is a reserved prototype key, else `undefined` (none). -/
def JsRecord.getProp {α : Type} (m : JsRecord α) (k : JsString) : Option (α ⊕ Unit) :=
  match m.getOwn k with
  | some v => some (Sum.inl v)
  | none => if m.hasProto && protoKeys.contains k then some (Sum.inr ()) else none

/-- Embedding of `newMap` (server.ts utility layer): `Object.create(null)` —
an object with no own entries and without the generic object prototype. -/
def newMap {α : Type} : JsRecord α := ⟨[], false⟩

/-- Embedding of `findValueInMaps(key, ...maps)` (server.ts utility layer):
scan the maps in order and return `mapElement[key]` from the first map whose
`has(mapElement, key)` own-property check succeeds (under that guard bracket
access reads the own entry); `undefined` when no map has the key. -/
def findValueInMaps {α : Type} (key : JsString) : List (JsRecord α) → Option α
  | [] => none
  | m :: rest => if m.has key then m.getOwn key else findValueInMaps key rest

/-- The six symbol collections of a `UI5SemanticModel`, as read by the
utility layer. Symbol values are abstract (`α`). -/
structure UI5SemanticModel (α : Type) where
  classes : JsRecord α
  enums : JsRecord α
  namespaces : JsRecord α
  interfaces : JsRecord α
  typedefs : JsRecord α
  functions : JsRecord α

/-- The `typeMaps` array of `forEachSymbol`, in source order. -/
def typeMaps {α : Type} (model : UI5SemanticModel α) : List (JsRecord α) :=
  [model.classes, model.enums, model.namespaces, model.interfaces,
   model.typedefs, model.functions]

/-- One `for (const key in mapElement)` loop of `forEachSymbol`, instrumented
to record each `iteratee(mapElement[key], key)` invocation in order. The
iteratee yields `boolean | void`, embedded as `Option Bool`; the flag of the
result is `false` when the iteratee returned the stop sentinel
(`keepIterating === false`), which triggers `break main`. -/
def visitMap {α : Type} (it : α → JsString → Option Bool) :
    List (JsString × α) → List (JsString × α) × Bool
  | [] => ([], true)
  | e :: rest =>
    if it e.2 e.1 == some false then ([e], false)
    else
      let r := visitMap it rest
      (e :: r.1, r.2)

/-- The labelled `main:` loop of `forEachSymbol` over the collection list,
instrumented as a visit trace: once a map's inner loop ended on the stop
sentinel, no further collection is entered. -/
def visitMaps {α : Type} (it : α → JsString → Option Bool) :
    List (JsRecord α) → List (JsString × α)
  | [] => []
  | m :: rest =>
    let r := visitMap it m.entries
    if r.2 then r.1 ++ visitMaps it rest else r.1

/-- Embedding of `forEachSymbol(model, iteratee)` (server.ts utility layer):
the trace of iteratee invocations, in order. -/
def forEachSymbolTrace {α : Type} (model : UI5SemanticModel α)
    (it : α → JsString → Option Bool) : List (JsString × α) :=
  visitMaps it (typeMaps model)

/-- All symbols of the model in the fixed traversal order: classes, enums,
namespaces, interfaces, typedefs, functions. -/
def allSymbols {α : Type} (model : UI5SemanticModel α) : List (JsString × α) :=
  ((typeMaps model).map JsRecord.entries).flatten

/-- The elements up to and including the first one satisfying `p`. -/
def takeThrough {β : Type} (p : β → Bool) : List β → List β
  | [] => []
  | x :: xs => if p x then [x] else x :: takeThrough p xs

/-- The stop-sentinel test of `forEachSymbol`: the iteratee returned
exactly `false` on this symbol. -/
def stopsOn {α : Type} (it : α → JsString → Option Bool) (e : JsString × α) : Bool :=
  it e.2 e.1 == some false

/-- Modelled from the spec: `findByFqn(fqn)` — the catalog's reverse lookup
"across all collections (first match wins; collections are searched in a
fixed, documented order: classes, enums, namespaces, interfaces, typedefs,
functions)". The function itself is not under `src/`; only the
`findValueInMaps` utility it relies on is. -/
def findByFqn {α : Type} (model : UI5SemanticModel α) (fqn : JsString) : Option α :=
  match model.classes.getOwn fqn with
  | some v => some v
  | none =>
  match model.enums.getOwn fqn with
  | some v => some v
  | none =>
  match model.namespaces.getOwn fqn with
  | some v => some v
  | none =>
  match model.interfaces.getOwn fqn with
  | some v => some v
  | none =>
  match model.typedefs.getOwn fqn with
  | some v => some v
  | none =>
  match model.functions.getOwn fqn with
  | some v => some v
  | none => none

/-- Modelled from the spec: `findInCollections(fqn, collections...)` — lookup
"for callers who know the expected kind(s) and want to avoid cross-kind
false positives", searching exactly the given collections in the given
order, realised by the `findValueInMaps` utility. Not under `src/`. -/
def findInCollections {α : Type} (fqn : JsString)
    (collections : List (JsRecord α)) : Option α :=
  findValueInMaps fqn collections

/-- vscode-languageserver file change kinds. -/
inductive FileChangeType
  | Created
  | Changed
  | Deleted
deriving DecidableEq

/-- A watched-file change notification entry. -/
structure FileEvent where
  uri : JsString
  type : FileChangeType
deriving DecidableEq

/-- The suffix "manifest.json". -/
def manifestSuffix : JsString :=
  ['m', 'a', 'n', 'i', 'f', 'e', 's', 't', '.', 'j', 's', 'o', 'n']

/-- The suffix "ui5.yaml". -/
def ui5YamlSuffix : JsString := ['u', 'i', '5', '.', 'y', 'a', 'm', 'l']

/-- The suffix ".cds". -/
def cdsSuffix : JsString := ['.', 'c', 'd', 's']

/-- The suffix ".xml". -/
def xmlSuffix : JsString := ['.', 'x', 'm', 'l']

/-- The suffix "package.json". -/
def packageJsonSuffix : JsString :=
  ['p', 'a', 'c', 'k', 'a', 'g', 'e', '.', 'j', 's', 'o', 'n']

/-- The suffix ".view.xml". -/
def viewXmlSuffix : JsString := ['.', 'v', 'i', 'e', 'w', '.', 'x', 'm', 'l']

/-- The suffix ".fragment.xml". -/
def fragmentXmlSuffix : JsString :=
  ['.', 'f', 'r', 'a', 'g', 'm', 'e', 'n', 't', '.', 'x', 'm', 'l']

/-- The per-change reaction branches of the `onDidChangeWatchedFiles`
if/else-if chain, in source order. -/
inductive ReactionKind
  | manifest
  | yaml
  | cds
  | xml
  | pkg
deriving DecidableEq

/-- The branch the `onDidChangeWatchedFiles` callback selects for a changed
uri (none when no suffix matches and the change is ignored). -/
def branchOf (uri : JsString) : Option ReactionKind :=
  if manifestSuffix.isSuffixOf uri then some ReactionKind.manifest
  else if ui5YamlSuffix.isSuffixOf uri then some ReactionKind.yaml
  else if cdsSuffix.isSuffixOf uri then some ReactionKind.cds
  else if xmlSuffix.isSuffixOf uri then some ReactionKind.xml
  else if packageJsonSuffix.isSuffixOf uri then some ReactionKind.pkg
  else none

/-- The reactions the watched-files callback starts (the four `reactOn*`
calls); `.cds` changes are instead pushed onto `cdsFileEvents`. In receipt
order, as lodash `forEach` invokes the callback per change in order. -/
def startedReactions (changes : List FileEvent) : List (ReactionKind × FileEvent) :=
  changes.filterMap (fun c =>
    match branchOf c.uri with
    | some ReactionKind.cds => none
    | some k => some (k, c)
    | none => none)

/-- The `cdsFileEvents` array accumulated by the callback: the `.cds`
changes of the burst, in receipt order. -/
def cdsFileEvents (changes : List FileEvent) : List FileEvent :=
  changes.filter (fun c => branchOf c.uri == some ReactionKind.cds)

/-- Observable events of one `onDidChangeWatchedFiles` run: a per-path
reaction being invoked / its promise resolving, the single batched
`reactOnCdsFileChange` invocation, and `validateOpenDocuments` starting. -/
inductive WatchEv
  | reactStart (k : ReactionKind) (e : FileEvent)
  | reactEnd (k : ReactionKind) (e : FileEvent)
  | cdsReact (events : List FileEvent)
  | validateStart
deriving DecidableEq

/-- The possible execution traces of the `onDidChangeWatchedFiles` handler
under the JavaScript event loop. lodash `forEach` invokes the async
callback once per change without awaiting the returned promise, so each
matched branch's `reactOn*` call starts synchronously in receipt order
while its completion stays pending. The handler then synchronously invokes
`reactOnCdsFileChange(cdsFileEvents)` — the first point it awaits — and,
once that resolves, calls `validateOpenDocuments`. The pending reaction
completions resolve in an arbitrary order determined by I/O timing, before
or after `validateStart`. -/
def handlerTraces (changes : List FileEvent) (t : List WatchEv) : Prop :=
  ∃ e₁ e₂ : List WatchEv,
    (e₁ ++ e₂).Perm
      ((startedReactions changes).map (fun r => WatchEv.reactEnd r.1 r.2)) ∧
    t = (startedReactions changes).map (fun r => WatchEv.reactStart r.1 r.2)
        ++ [WatchEv.cdsReact (cdsFileEvents changes)]
        ++ e₁ ++ [WatchEv.validateStart] ++ e₂

/-- Is this event the resolution of a per-path reaction? -/
def isReactEndEv : WatchEv → Bool
  | WatchEv.reactEnd _ _ => true
  | _ => false

/-- Is this event the batched cds reaction invocation? -/
def isCdsReactEv : WatchEv → Bool
  | WatchEv.cdsReact _ => true
  | _ => false

/-- The property claimed of the handler: every per-path reaction has
completed by the time document revalidation begins — no reaction
resolution event occurs at or after `validateStart`. -/
def reactionsDoneBeforeValidate (t : List WatchEv) : Bool :=
  !((t.dropWhile (fun e => !(decide (e = WatchEv.validateStart)))).any isReactEndEv)

/-- The UI5 model fields of a `Context` the handlers read. -/
structure UI5ModelInfo where
  version : JsString
  isFallback : Bool
  isIncorrectVersion : Bool
deriving DecidableEq

/-- The yaml-declaration fields of a `Context` the handlers read. -/
structure YamlDetails where
  framework : JsString
deriving DecidableEq

/-- A resolved `Context`, restricted to the fields the server handlers
read; the catalog and project-configuration payload stay abstract. -/
structure Context where
  ui5Model : UI5ModelInfo
  yamlDetails : YamlDetails
deriving DecidableEq

/-- Outcome of `getContext`: a `Context` or a `ContextError` value (the
error payload is abstract, `ε`). -/
inductive CtxResult (ε : Type)
  | ok (c : Context)
  | err (e : ε)

/-- Embedding of `isContext`, the discriminant between a successful
`Context` and a `ContextError`. -/
def isContext {ε : Type} : CtxResult ε → Bool
  | CtxResult.ok _ => true
  | CtxResult.err _ => false

/-- The external collaborators of the server handlers, abstracted as
oracles: `getContext` resolution per document path, the CDN base-url
lookup, and the feature computations (XML-view diagnostics `δ`,
completion items `κ`, hover `η`, quick-fix code actions `γ`); context
errors carry `ε`. Their internals are out of scope for the server. -/
structure Env (δ κ η γ ε : Type) where
  getContext : JsString → CtxResult ε
  getCDNBaseUrl : JsString → JsString → JsString
  getXMLViewDiagnostics : JsString → Context → List δ
  getCompletionItems : Context → JsString → List κ
  getHoverResponse : Context → JsString → Option η
  diagnosticToCodeActionFix : JsString → Context → List γ

/-- Protocol messages the handlers send: the
"UI5LanguageAssistant/context-error" notification, the
"UI5LanguageAssistant/ui5Model" notification (url, framework, version,
isFallback, isIncorrectVersion), and published diagnostics. -/
inductive Msg (δ ε : Type)
  | contextError (e : ε)
  | ui5Model (url framework version : JsString) (isFallback isIncorrectVersion : Bool)
  | diagnostics (uri : JsString) (diags : List δ)
deriving DecidableEq

/-- The "UI5LanguageAssistant/ui5Model" notification a handler publishes on
a successful `getContext`: the CDN base url for the effective framework and
version, the effective framework and version, and the two flags. -/
def ui5ModelMsg {δ κ η γ ε : Type} (env : Env δ κ η γ ε) (c : Context) : Msg δ ε :=
  Msg.ui5Model (env.getCDNBaseUrl c.yamlDetails.framework c.ui5Model.version)
    c.yamlDetails.framework c.ui5Model.version c.ui5Model.isFallback
    c.ui5Model.isIncorrectVersion

/-- Modelled from the spec: the markup-view test `isXMLView` of the
logic-utils package (code of this repository that is not under `src/`) — a
"markup file" in the sense of §4.5, i.e. an XML view or fragment. -/
def isXMLView (uri : JsString) : Bool :=
  viewXmlSuffix.isSuffixOf uri || fragmentXmlSuffix.isSuffixOf uri

/-- The `supportedDocs` suffix list of `validateOpenDocuments`, in source
order. -/
def supportedDocs : List JsString :=
  [manifestSuffix, ui5YamlSuffix, cdsSuffix, xmlSuffix, packageJsonSuffix]

/-- The guard of `validateOpenDocuments`: the burst holds a change whose
path ends in a supported suffix and is not an XML view. -/
def hasRelevantChange (changes : List FileEvent) : Bool :=
  changes.any (fun c =>
    !isXMLView c.uri && supportedDocs.any (fun d => d.isSuffixOf c.uri))

/-- The per-document loop of `validateOpenDocuments`: resolve each open
document's context in order; on a context error, send the error
notification and return; otherwise publish the recomputed XML-view
diagnostics and continue. -/
def validatePass {δ κ η γ ε : Type} (env : Env δ κ η γ ε) :
    List JsString → List (Msg δ ε)
  | [] => []
  | uri :: rest =>
    match env.getContext uri with
    | CtxResult.err e => [Msg.contextError e]
    | CtxResult.ok c =>
      Msg.diagnostics uri (env.getXMLViewDiagnostics uri c) :: validatePass env rest

/-- Embedding of `validateOpenDocuments(changes)`: the messages published
for the open documents, guarded by `hasRelevantChange`. -/
def validateOpenDocuments {δ κ η γ ε : Type} (env : Env δ κ η γ ε)
    (openDocs : List JsString) (changes : List FileEvent) : List (Msg δ ε) :=
  if hasRelevantChange changes then validatePass env openDocs else []

/-- The diagnostics `validateOpenDocuments` recomputes for one open
document whose context resolves. -/
def diagsOf {δ κ η γ ε : Type} (env : Env δ κ η γ ε) (uri : JsString) : List δ :=
  match env.getContext uri with
  | CtxResult.ok c => env.getXMLViewDiagnostics uri c
  | CtxResult.err _ => []

/-- Is this message the "context-error" notification? -/
def isCtxErrorMsg {δ ε : Type} : Msg δ ε → Bool
  | Msg.contextError _ => true
  | _ => false

/-- Embedding of the `onCompletion` handler: the messages sent and the
returned completion-item list. (The settings read between the notification
and the item computation has no observable protocol effect and is owned by
an external collaborator.) -/
def onCompletion {δ κ η γ ε : Type} (env : Env δ κ η γ ε)
    (openDocs : List JsString) (uri : JsString) : List (Msg δ ε) × List κ :=
  if openDocs.contains uri then
    match env.getContext uri with
    | CtxResult.err e => ([Msg.contextError e], [])
    | CtxResult.ok c => ([ui5ModelMsg env c], env.getCompletionItems c uri)
  else ([], [])

/-- Embedding of the `onHover` handler: the messages sent and the returned
hover (none when the document is unknown or the context fails). -/
def onHover {δ κ η γ ε : Type} (env : Env δ κ η γ ε)
    (openDocs : List JsString) (uri : JsString) : List (Msg δ ε) × Option η :=
  if openDocs.contains uri then
    match env.getContext uri with
    | CtxResult.err e => ([Msg.contextError e], none)
    | CtxResult.ok c => ([ui5ModelMsg env c], env.getHoverResponse c uri)
  else ([], none)

/-- Embedding of the `onDidChangeContent` handler: `inited` records that
the manifest and yaml initialization promises exist (a workspace folder
was given); the handler is a no-op for non-XML-view documents. -/
def onDidChangeContent {δ κ η γ ε : Type} (env : Env δ κ η γ ε)
    (inited : Bool) (openDocs : List JsString) (uri : JsString) : List (Msg δ ε) :=
  if !inited || !isXMLView uri then []
  else if openDocs.contains uri then
    match env.getContext uri with
    | CtxResult.err e => [Msg.contextError e]
    | CtxResult.ok c =>
      [ui5ModelMsg env c, Msg.diagnostics uri (env.getXMLViewDiagnostics uri c)]
  else []

/-- Embedding of the `onCodeAction` handler: the messages sent and the
returned code actions (none when the document is unknown or the context
fails). -/
def onCodeAction {δ κ η γ ε : Type} (env : Env δ κ η γ ε)
    (openDocs : List JsString) (uri : JsString) :
    List (Msg δ ε) × Option (List γ) :=
  if openDocs.contains uri then
    match env.getContext uri with
    | CtxResult.err e => ([Msg.contextError e], none)
    | CtxResult.ok c => ([ui5ModelMsg env c], some (env.diagnosticToCodeActionFix uri c))
  else ([], none)

/-- A concrete sample context for witnesses. -/
def ctx0 : Context := ⟨⟨['1'], true, false⟩, ⟨['S']⟩⟩

/-- A concrete environment whose context resolution always succeeds. -/
def envOk : Env Nat Nat Nat Nat Nat :=
  ⟨fun _ => CtxResult.ok ctx0, fun f v => f ++ v, fun _ _ => [1],
   fun _ _ => [2], fun _ _ => some 3, fun _ _ => [4]⟩

/-- A concrete environment whose context resolution always fails. -/
def envErr : Env Nat Nat Nat Nat Nat :=
  ⟨fun _ => CtxResult.err 5, fun f v => f ++ v, fun _ _ => [1],
   fun _ _ => [2], fun _ _ => some 3, fun _ _ => [4]⟩

/-- A concrete environment resolving the document "d" and failing all
others, for witnesses of the error-path theorems. -/
def envMix : Env Nat Nat Nat Nat Nat :=
  ⟨fun u => if u == ['d'] then CtxResult.ok ctx0 else CtxResult.err 9,
   fun f v => f ++ v, fun _ _ => [1], fun _ _ => [2], fun _ _ => some 3,
   fun _ _ => [4]⟩

theorem getParentFqn_eq_some_iff (fqn name p : JsString) :
    getParentFqn fqn name = some p ↔ fqn = p ++ '.' :: name := by
  constructor
  · intro h
    unfold getParentFqn at h
    by_cases hc : (!fqn.isEmpty && ('.' :: name).isSuffixOf fqn) = true
    · rw [if_pos hc] at h
      have hsuf : ('.' :: name) <:+ fqn := by
        rw [← List.isSuffixOf_iff_suffix]
        exact (Bool.and_eq_true _ _ |>.mp hc).2
      obtain ⟨t, ht⟩ := hsuf
      injection h with h
      subst ht
      have hlen : (t ++ '.' :: name).length - (name.length + 1) = t.length := by
        simp [List.length_append]
      rw [hlen, List.take_left] at h
      rw [← h]
    · rw [if_neg hc] at h
      exact Option.noConfusion h
  · intro h
    subst h
    unfold getParentFqn
    rw [if_pos]
    · have hlen : (p ++ '.' :: name).length - (name.length + 1) = p.length := by
        simp [List.length_append]
      rw [hlen, List.take_left]
    · apply Bool.and_eq_true _ _ |>.mpr
      refine ⟨?_, ?_⟩
      · simp
      · rw [List.isSuffixOf_iff_suffix]
        exact ⟨p, rfl⟩

/-- C1: `getParentFqn(fqn, name)` returns `fqn` with the trailing `"." + name`
removed exactly when `fqn` (necessarily non-empty) ends with `"." + name`,
i.e. when `fqn = p ++ "." + name` for some `p`, in which case it returns that
`p`; on every other input pair it returns none. -/
theorem getParentFqn_spec (fqn name : JsString) :
    (∀ p, getParentFqn fqn name = some p ↔ fqn = p ++ '.' :: name) ∧
    (getParentFqn fqn name = none ↔ ∀ p, fqn ≠ p ++ '.' :: name) := by
  refine ⟨fun p => getParentFqn_eq_some_iff fqn name p, ?_, ?_⟩
  · intro hnone p hp
    have := (getParentFqn_eq_some_iff fqn name p).mpr hp
    rw [hnone] at this
    exact Option.noConfusion this
  · intro hall
    cases hq : getParentFqn fqn name with
    | none => rfl
    | some q =>
      exact absurd ((getParentFqn_eq_some_iff fqn name q).mp hq) (hall q)

/-- Witness for C1: `getParentFqn "a.b.c" "c" = some "a.b"` and
`getParentFqn "abc" "c" = none`, as instances of the general theorem. -/
theorem getParentFqn_spec_witness :
    getParentFqn ['a', '.', 'b', '.', 'c'] ['c'] = some ['a', '.', 'b'] ∧
    getParentFqn ['a', 'b', 'c'] ['c'] = none := by
  constructor
  · exact ((getParentFqn_spec ['a', '.', 'b', '.', 'c'] ['c']).1 ['a', '.', 'b']).mpr (by decide)
  · refine ((getParentFqn_spec ['a', 'b', 'c'] ['c']).2).mpr ?_
    intro p hp
    have hsuf : (['.', 'c'] : JsString) <:+ ['a', 'b', 'c'] := ⟨p, hp.symm⟩
    exact absurd hsuf (by decide)

theorem visitMap_eq {α : Type} (it : α → JsString → Option Bool)
    (l : List (JsString × α)) :
    visitMap it l = (takeThrough (stopsOn it) l, !(l.any (stopsOn it))) := by
  induction l with
  | nil => rfl
  | cons e rest ih =>
    by_cases h : stopsOn it e = true
    · unfold stopsOn at h
      simp [visitMap, takeThrough, stopsOn, h]
    · simp only [Bool.not_eq_true] at h
      unfold stopsOn at h
      simp [visitMap, takeThrough, stopsOn, h, ih]

theorem takeThrough_append_of_not_any {β : Type} (p : β → Bool) (l₁ l₂ : List β)
    (h : l₁.any p = false) :
    takeThrough p (l₁ ++ l₂) = l₁ ++ takeThrough p l₂ := by
  induction l₁ with
  | nil => simp
  | cons x xs ih =>
    simp only [List.any_cons, Bool.or_eq_false_iff] at h
    simp [takeThrough, h.1, ih h.2]

theorem takeThrough_append_of_any {β : Type} (p : β → Bool) (l₁ l₂ : List β)
    (h : l₁.any p = true) :
    takeThrough p (l₁ ++ l₂) = takeThrough p l₁ := by
  induction l₁ with
  | nil => simp at h
  | cons x xs ih =>
    by_cases hx : p x = true
    · simp [takeThrough, hx]
    · simp only [Bool.not_eq_true] at hx
      simp only [List.any_cons, hx, Bool.false_or] at h
      simp [takeThrough, hx, ih h]

theorem takeThrough_eq_self {β : Type} (p : β → Bool) (l : List β)
    (h : l.any p = false) : takeThrough p l = l := by
  have := takeThrough_append_of_not_any p l [] h
  simpa [takeThrough] using this

theorem takeThrough_first_hit {β : Type} (p : β → Bool) (l₁ : List β) (e : β)
    (l₂ : List β) (h1 : l₁.any p = false) (h2 : p e = true) :
    takeThrough p (l₁ ++ e :: l₂) = l₁ ++ [e] := by
  rw [takeThrough_append_of_not_any p l₁ _ h1]
  simp [takeThrough, h2]

theorem visitMaps_eq {α : Type} (it : α → JsString → Option Bool)
    (maps : List (JsRecord α)) :
    visitMaps it maps = takeThrough (stopsOn it) ((maps.map JsRecord.entries).flatten) := by
  induction maps with
  | nil => simp [visitMaps, takeThrough]
  | cons m rest ih =>
    rw [List.map_cons, List.flatten_cons]
    by_cases h : (m.entries.any (stopsOn it)) = true
    · rw [takeThrough_append_of_any _ _ _ h]
      simp [visitMaps, visitMap_eq, h]
    · simp only [Bool.not_eq_true] at h
      rw [takeThrough_append_of_not_any _ _ _ h]
      simp [visitMaps, visitMap_eq, h, ih]
      exact takeThrough_eq_self _ _ h

/-- C2: `forEachSymbol` visits the symbols of the six collections in the
fixed order classes, enums, namespaces, interfaces, typedefs, functions:
its visit trace is exactly the prefix of `allSymbols` up to and including
the first symbol on which the iteratee returns the stop sentinel `false`;
in particular, when the sentinel is never returned every symbol is visited
exactly once in that order, and when it is returned on symbol `e`, `e` is
visited and no symbol after `e` in traversal order is visited, across all
remaining collections. -/
theorem forEachSymbol_spec {α : Type} (model : UI5SemanticModel α)
    (it : α → JsString → Option Bool) :
    forEachSymbolTrace model it = takeThrough (stopsOn it) (allSymbols model) ∧
    ((∀ e ∈ allSymbols model, stopsOn it e = false) →
      forEachSymbolTrace model it = allSymbols model) ∧
    (∀ pre e post, allSymbols model = pre ++ e :: post →
      stopsOn it e = true → (∀ x ∈ pre, stopsOn it x = false) →
      forEachSymbolTrace model it = pre ++ [e]) := by
  refine ⟨visitMaps_eq it (typeMaps model), ?_, ?_⟩
  · intro h
    have hany : (allSymbols model).any (stopsOn it) = false := by
      rw [List.any_eq_false]
      intro e he
      simp [h e he]
    have := visitMaps_eq it (typeMaps model)
    unfold forEachSymbolTrace
    rw [this]
    exact takeThrough_eq_self _ _ hany
  · intro pre e post hsplit hstop hpre
    have hany : pre.any (stopsOn it) = false := by
      rw [List.any_eq_false]
      intro x hx
      simp [hpre x hx]
    have heq := visitMaps_eq it (typeMaps model)
    unfold forEachSymbolTrace
    rw [heq]
    show takeThrough (stopsOn it) (allSymbols model) = pre ++ [e]
    rw [hsplit]
    exact takeThrough_first_hit _ _ _ _ hany hstop

/-- Witness for C2: a concrete two-symbol model where the iteratee stops on
the second symbol; the trace is the two symbols and nothing more, and with a
never-stopping iteratee the trace is all symbols. -/
theorem forEachSymbol_spec_witness :
    forEachSymbolTrace
      (⟨⟨[(['a'], 1), (['b'], 2)], false⟩, ⟨[(['c'], 3)], false⟩,
        newMap, newMap, newMap, newMap⟩ : UI5SemanticModel Nat)
      (fun v _ => some (v != 2)) = [(['a'], 1), (['b'], 2)] := by
  have h := (forEachSymbol_spec
      (⟨⟨[(['a'], 1), (['b'], 2)], false⟩, ⟨[(['c'], 3)], false⟩,
        newMap, newMap, newMap, newMap⟩ : UI5SemanticModel Nat)
      (fun v _ => some (v != 2))).2.2
      [(['a'], 1)] (['b'], 2) [(['c'], 3)]
  exact h (by decide) (by decide) (by decide)

theorem findValueInMaps_cons {α : Type} (key : JsString) (m : JsRecord α)
    (rest : List (JsRecord α)) :
    findValueInMaps key (m :: rest) =
      (match m.getOwn key with
       | some v => some v
       | none => findValueInMaps key rest) := by
  cases h : m.getOwn key with
  | some v =>
    have hs : m.has key = true := by simp [JsRecord.has, h]
    simp [findValueInMaps, hs, h]
  | none =>
    have hs : m.has key = false := by simp [JsRecord.has, h]
    simp [findValueInMaps, hs, h]

theorem findValueInMaps_nil {α : Type} (key : JsString) :
    findValueInMaps (α := α) key [] = none := rfl

/-- C3: `findValueInMaps` is first-match-wins — it returns the value bound
to the key in the earliest map having the key as an own entry, and none
when no map has it; consequently the catalog-wide reverse lookup
`findByFqn` over the six collections in the fixed order agrees with
`findInCollections` applied to all six collections. -/
theorem findValueInMaps_spec {α : Type} :
    (∀ (key : JsString) (pre : List (JsRecord α)) (m : JsRecord α)
        (post : List (JsRecord α)),
      (∀ m' ∈ pre, m'.has key = false) → m.has key = true →
      findValueInMaps key (pre ++ m :: post) = m.getOwn key) ∧
    (∀ (key : JsString) (maps : List (JsRecord α)),
      findValueInMaps key maps = none ↔ ∀ m ∈ maps, m.has key = false) ∧
    (∀ (model : UI5SemanticModel α) (fqn : JsString),
      findByFqn model fqn = findInCollections fqn (typeMaps model)) := by
  refine ⟨?_, ?_, ?_⟩
  · intro key pre m post hpre hm
    induction pre with
    | nil => simp [findValueInMaps, hm]
    | cons m' pre' ih =>
      have hm' : m'.has key = false := hpre m' (List.mem_cons_self m' pre')
      have hrest : ∀ x ∈ pre', x.has key = false :=
        fun x hx => hpre x (List.mem_cons_of_mem m' hx)
      simp only [List.cons_append, findValueInMaps, hm']
      simpa using ih hrest
  · intro key maps
    induction maps with
    | nil => simp [findValueInMaps]
    | cons m rest ih =>
      cases hm : m.has key with
      | true =>
        have : (m.getOwn key).isSome = true := hm
        obtain ⟨v, hv⟩ := Option.isSome_iff_exists.mp this
        simp [findValueInMaps, hm, hv]
      | false =>
        simp [findValueInMaps, hm, ih]
  · intro model fqn
    simp only [findInCollections, typeMaps, findValueInMaps_cons, findValueInMaps_nil]
    cases h1 : model.classes.getOwn fqn <;>
    cases h2 : model.enums.getOwn fqn <;>
    cases h3 : model.namespaces.getOwn fqn <;>
    cases h4 : model.interfaces.getOwn fqn <;>
    cases h5 : model.typedefs.getOwn fqn <;>
    cases h6 : model.functions.getOwn fqn <;>
    simp [findByFqn, h1, h2, h3, h4, h5, h6]

/-- Witness for C3: a concrete two-map catalog where the key sits in the
second map; the first-match rule and the agreement of `findByFqn` with
`findInCollections` hold on it. -/
theorem findValueInMaps_spec_witness :
    findValueInMaps ['x'] [(newMap : JsRecord Nat), ⟨[(['x'], 7)], false⟩] = some 7 ∧
    findByFqn (⟨newMap, ⟨[(['x'], 7)], false⟩, newMap, newMap, newMap, newMap⟩ :
      UI5SemanticModel Nat) ['x'] =
      findInCollections ['x'] (typeMaps (⟨newMap, ⟨[(['x'], 7)], false⟩, newMap,
        newMap, newMap, newMap⟩ : UI5SemanticModel Nat)) := by
  constructor
  · have h := (findValueInMaps_spec (α := Nat)).1 ['x']
      [(newMap : JsRecord Nat)] (⟨[(['x'], 7)], false⟩ : JsRecord Nat) []
      (by decide) (by decide)
    simpa using h
  · exact (findValueInMaps_spec (α := Nat)).2.2
      (⟨newMap, ⟨[(['x'], 7)], false⟩, newMap, newMap, newMap, newMap⟩ :
        UI5SemanticModel Nat) ['x']

/-- C4: a freshly created `newMap` exposes no key whatsoever — bracket
access yields `undefined` for every key, including the reserved prototype
keys such as "constructor" and "toString"; `findValueInMaps` finds nothing
in it; and enumeration visits nothing — until entries are inserted. -/
theorem newMap_spec {α : Type} (key : JsString) (it : α → JsString → Option Bool) :
    (newMap : JsRecord α).getProp key = none ∧
    findValueInMaps key [(newMap : JsRecord α)] = none ∧
    (newMap : JsRecord α).entries = [] ∧
    visitMap it (newMap : JsRecord α).entries = ([], true) := by
  exact ⟨rfl, rfl, rfl, rfl⟩

/-- By contrast, an object that does carry the generic object prototype
answers bracket access on the reserved key "toString" even with no own
entries — the accidental-shadowing hazard that `Object.create(null)`
avoids. -/
theorem protoRecord_exposes_toString :
    (⟨[], true⟩ : JsRecord Nat).getProp ['t', 'o', 'S', 't', 'r', 'i', 'n', 'g']
      = some (Sum.inr ()) := by decide

theorem branchOf_eq_cds_iff (uri : JsString) :
    branchOf uri = some ReactionKind.cds ↔ cdsSuffix.isSuffixOf uri = true := by
  constructor
  · intro h
    unfold branchOf at h
    split_ifs at h with h1 h2 h3 h4 h5 <;> first | exact h3 | simp at h
  · intro hc
    have h1 : manifestSuffix.isSuffixOf uri = false := by
      by_contra hm
      rw [Bool.not_eq_false] at hm
      have hs1 := List.isSuffixOf_iff_suffix.mp hm
      have hs2 := List.isSuffixOf_iff_suffix.mp hc
      rcases List.suffix_or_suffix_of_suffix hs2 hs1 with h | h
      · exact absurd h (by decide)
      · exact absurd h (by decide)
    have h2 : ui5YamlSuffix.isSuffixOf uri = false := by
      by_contra hm
      rw [Bool.not_eq_false] at hm
      have hs1 := List.isSuffixOf_iff_suffix.mp hm
      have hs2 := List.isSuffixOf_iff_suffix.mp hc
      rcases List.suffix_or_suffix_of_suffix hs2 hs1 with h | h
      · exact absurd h (by decide)
      · exact absurd h (by decide)
    simp [branchOf, h1, h2, hc]

theorem cdsFileEvents_eq_filter (changes : List FileEvent) :
    cdsFileEvents changes
      = changes.filter (fun c => cdsSuffix.isSuffixOf c.uri) := by
  unfold cdsFileEvents
  apply List.filter_congr
  intro c _
  cases hc : cdsSuffix.isSuffixOf c.uri with
  | true =>
    have := (branchOf_eq_cds_iff c.uri).mpr hc
    simp [this]
  | false =>
    have hne : branchOf c.uri ≠ some ReactionKind.cds := by
      intro h
      rw [(branchOf_eq_cds_iff c.uri).mp h] at hc
      exact Bool.noConfusion hc
    simp [hne]

/-- C7: in every execution trace of the watched-files handler,
`reactOnCdsFileChange` is invoked exactly once per burst, and its argument
is exactly the list of `.cds` changes of the burst in receipt order — the
empty list when the burst holds none, and never one invocation per file. -/
theorem cdsReact_once_per_burst (changes : List FileEvent) (t : List WatchEv)
    (h : handlerTraces changes t) :
    t.countP isCdsReactEv = 1 ∧
    WatchEv.cdsReact (changes.filter (fun c => cdsSuffix.isSuffixOf c.uri)) ∈ t := by
  obtain ⟨e₁, e₂, hperm, ht⟩ := h
  subst ht
  constructor
  · have hstarts : ((startedReactions changes).map
        (fun r => WatchEv.reactStart r.1 r.2)).countP isCdsReactEv = 0 := by
      rw [List.countP_eq_zero]
      intro a ha
      obtain ⟨r, _, rfl⟩ := List.mem_map.mp ha
      simp [isCdsReactEv]
    have hends : (e₁ ++ e₂).countP isCdsReactEv = 0 := by
      rw [hperm.countP_eq]
      rw [List.countP_eq_zero]
      intro a ha
      obtain ⟨r, _, rfl⟩ := List.mem_map.mp ha
      simp [isCdsReactEv]
    rw [List.countP_append] at hends
    have he1 : e₁.countP isCdsReactEv = 0 := Nat.eq_zero_of_add_eq_zero_right hends
    have he2 : e₂.countP isCdsReactEv = 0 := Nat.eq_zero_of_add_eq_zero_left hends
    simp [List.countP_append, List.countP_cons, List.countP_nil, isCdsReactEv,
      hstarts, he1, he2]
  · rw [← cdsFileEvents_eq_filter]
    simp

/-- Witness for C7: a one-change burst of a `.cds` file, with the trace in
which both pending lists are empty; the batched reaction occurs exactly
once, carrying that single change. -/
theorem cdsReact_once_per_burst_witness :
    ([WatchEv.cdsReact [⟨['a', '.', 'c', 'd', 's'], FileChangeType.Changed⟩],
      WatchEv.validateStart] : List WatchEv).countP isCdsReactEv = 1 ∧
    WatchEv.cdsReact (([⟨['a', '.', 'c', 'd', 's'], FileChangeType.Changed⟩] :
        List FileEvent).filter (fun c => cdsSuffix.isSuffixOf c.uri)) ∈
      ([WatchEv.cdsReact [⟨['a', '.', 'c', 'd', 's'], FileChangeType.Changed⟩],
        WatchEv.validateStart] : List WatchEv) := by
  exact cdsReact_once_per_burst
    [⟨['a', '.', 'c', 'd', 's'], FileChangeType.Changed⟩]
    [WatchEv.cdsReact [⟨['a', '.', 'c', 'd', 's'], FileChangeType.Changed⟩],
     WatchEv.validateStart]
    ⟨[], [], by decide, by decide⟩

/-- C5 evidence (code bug): because lodash `forEach` does not await the
async per-change callback, there is a legal execution trace of a burst
containing one "manifest.json" change in which document revalidation
begins before `reactOnManifestChange` has completed — the awaited-to-
completion guarantee fails. -/
theorem watchedFiles_reaction_can_outlive_validateStart :
    ∃ t, handlerTraces
        [⟨['p', '/', 'm', 'a', 'n', 'i', 'f', 'e', 's', 't', '.', 'j', 's',
           'o', 'n'], FileChangeType.Changed⟩] t ∧
      reactionsDoneBeforeValidate t = false := by
  refine ⟨[WatchEv.reactStart ReactionKind.manifest
            ⟨['p', '/', 'm', 'a', 'n', 'i', 'f', 'e', 's', 't', '.', 'j', 's',
              'o', 'n'], FileChangeType.Changed⟩,
           WatchEv.cdsReact [], WatchEv.validateStart,
           WatchEv.reactEnd ReactionKind.manifest
            ⟨['p', '/', 'm', 'a', 'n', 'i', 'f', 'e', 's', 't', '.', 'j', 's',
              'o', 'n'], FileChangeType.Changed⟩],
         ⟨[], [WatchEv.reactEnd ReactionKind.manifest
            ⟨['p', '/', 'm', 'a', 'n', 'i', 'f', 'e', 's', 't', '.', 'j', 's',
              'o', 'n'], FileChangeType.Changed⟩], ?_, ?_⟩, ?_⟩
  · decide
  · decide
  · decide

theorem validatePass_all_ok {δ κ η γ ε : Type} (env : Env δ κ η γ ε) :
    ∀ docs : List JsString, (∀ u ∈ docs, isContext (env.getContext u) = true) →
    validatePass env docs = docs.map (fun u => Msg.diagnostics u (diagsOf env u)) := by
  intro docs
  induction docs with
  | nil => intro _; rfl
  | cons u rest ih =>
    intro hok
    have hu := hok u (List.mem_cons_self u rest)
    cases hc : env.getContext u with
    | err e =>
      rw [hc] at hu
      simp [isContext] at hu
    | ok c =>
      have ih' := ih (fun x hx => hok x (List.mem_cons_of_mem u hx))
      simp [validatePass, hc, ih', diagsOf]

/-- C6 fails as stated: a burst whose only change is to an XML *view* — a
path that does end in ".xml", is recognized, and is reacted on by
`reactOnXmlFileChange` — does not trigger the revalidation pass at all:
with an open document whose diagnostics the pass would have recomputed and
published, the handler publishes nothing. -/
theorem validate_skipped_for_view_xml_change :
    (supportedDocs.any (fun d =>
      d.isSuffixOf ['a', '.', 'v', 'i', 'e', 'w', '.', 'x', 'm', 'l'])) = true ∧
    branchOf ['a', '.', 'v', 'i', 'e', 'w', '.', 'x', 'm', 'l']
      = some ReactionKind.xml ∧
    validatePass envOk [['d']] ≠ [] ∧
    validateOpenDocuments envOk [['d']]
      [⟨['a', '.', 'v', 'i', 'e', 'w', '.', 'x', 'm', 'l'],
        FileChangeType.Changed⟩] = [] := by
  refine ⟨by decide, by decide, by decide, by decide⟩

/-- C6 amended: the revalidation pass runs whenever the burst contains a
recognized change that is not an XML view or fragment (a path ending in
manifest.json, ui5.yaml, .cds, package.json, or a non-view .xml); it is
then applied unconditionally — the diagnostics of every open document are
recomputed and published, with no reference to the outcome of the per-path
reactions, which it never consults. -/
theorem validateOpenDocuments_unconditional_when_relevant
    {δ κ η γ ε : Type} (env : Env δ κ η γ ε)
    (openDocs : List JsString) (changes : List FileEvent)
    (hrel : hasRelevantChange changes = true)
    (hok : ∀ u ∈ openDocs, isContext (env.getContext u) = true) :
    validateOpenDocuments env openDocs changes
      = openDocs.map (fun u => Msg.diagnostics u (diagsOf env u)) := by
  unfold validateOpenDocuments
  rw [if_pos hrel]
  exact validatePass_all_ok env openDocs hok

/-- Witness for amended C6: a non-view ".xml" change triggers the pass and
the open document's diagnostics are published. -/
theorem validateOpenDocuments_unconditional_witness :
    validateOpenDocuments envOk [['d']]
      [⟨['a', '.', 'x', 'm', 'l'], FileChangeType.Changed⟩]
      = ([['d']] : List JsString).map (fun u => Msg.diagnostics u (diagsOf envOk u)) :=
  validateOpenDocuments_unconditional_when_relevant envOk [['d']]
    [⟨['a', '.', 'x', 'm', 'l'], FileChangeType.Changed⟩] (by decide) (by decide)

/-- C8: when `getContext` yields a context error for an open document, the
completion handler sends exactly the context-error notification and
returns the empty item list, and the hover handler sends it and returns no
hover — for every environment with that resolution, hence independently of
every catalog-dependent collaborator. -/
theorem contextError_feature_noop {δ κ η γ ε : Type} (env : Env δ κ η γ ε)
    (openDocs : List JsString) (uri : JsString) (e : ε)
    (hopen : openDocs.contains uri = true)
    (herr : env.getContext uri = CtxResult.err e) :
    onCompletion env openDocs uri = ([Msg.contextError e], []) ∧
    onHover env openDocs uri = ([Msg.contextError e], none) := by
  have hmem : uri ∈ openDocs := by simpa using hopen
  constructor
  · simp [onCompletion, hmem, herr]
  · simp [onHover, hmem, herr]

/-- Witness for C8 on a concrete failing environment. -/
theorem contextError_feature_noop_witness :
    onCompletion envErr [['d']] ['d'] = ([Msg.contextError 5], []) ∧
    onHover envErr [['d']] ['d'] = ([Msg.contextError 5], none) :=
  contextError_feature_noop envErr [['d']] ['d'] 5 (by decide) rfl

/-- C9: on every successful `getContext` resolution for the active document
in the completion, hover, content-change and code-action handlers, the
"ui5Model" notification — carrying the CDN base url, the effective
framework, the effective version, and the `isFallback` and
`isIncorrectVersion` flags — is published before the handler's result is
produced: it is the head of the handler's message output, ahead of the
result (and of any published diagnostics). -/
theorem ui5Model_published_on_success {δ κ η γ ε : Type} (env : Env δ κ η γ ε)
    (openDocs : List JsString) (uri : JsString) (c : Context)
    (hopen : openDocs.contains uri = true)
    (hok : env.getContext uri = CtxResult.ok c)
    (hview : isXMLView uri = true) :
    onCompletion env openDocs uri
      = ([ui5ModelMsg env c], env.getCompletionItems c uri) ∧
    onHover env openDocs uri = ([ui5ModelMsg env c], env.getHoverResponse c uri) ∧
    onDidChangeContent env true openDocs uri
      = [ui5ModelMsg env c, Msg.diagnostics uri (env.getXMLViewDiagnostics uri c)] ∧
    onCodeAction env openDocs uri
      = ([ui5ModelMsg env c], some (env.diagnosticToCodeActionFix uri c)) := by
  have hmem : uri ∈ openDocs := by simpa using hopen
  refine ⟨?_, ?_, ?_, ?_⟩
  · simp [onCompletion, hmem, hok]
  · simp [onHover, hmem, hok]
  · simp [onDidChangeContent, hmem, hok, hview]
  · simp [onCodeAction, hmem, hok]

/-- Witness for C9: a concrete open XML view with a succeeding environment;
all four handlers publish the ui5Model notification first. -/
theorem ui5Model_published_on_success_witness :
    onCompletion envOk [['a', '.', 'v', 'i', 'e', 'w', '.', 'x', 'm', 'l']]
        ['a', '.', 'v', 'i', 'e', 'w', '.', 'x', 'm', 'l']
      = ([ui5ModelMsg envOk ctx0],
         envOk.getCompletionItems ctx0 ['a', '.', 'v', 'i', 'e', 'w', '.', 'x', 'm', 'l']) ∧
    onHover envOk [['a', '.', 'v', 'i', 'e', 'w', '.', 'x', 'm', 'l']]
        ['a', '.', 'v', 'i', 'e', 'w', '.', 'x', 'm', 'l']
      = ([ui5ModelMsg envOk ctx0],
         envOk.getHoverResponse ctx0 ['a', '.', 'v', 'i', 'e', 'w', '.', 'x', 'm', 'l']) ∧
    onDidChangeContent envOk true [['a', '.', 'v', 'i', 'e', 'w', '.', 'x', 'm', 'l']]
        ['a', '.', 'v', 'i', 'e', 'w', '.', 'x', 'm', 'l']
      = [ui5ModelMsg envOk ctx0,
         Msg.diagnostics ['a', '.', 'v', 'i', 'e', 'w', '.', 'x', 'm', 'l']
           (envOk.getXMLViewDiagnostics
             ['a', '.', 'v', 'i', 'e', 'w', '.', 'x', 'm', 'l'] ctx0)] ∧
    onCodeAction envOk [['a', '.', 'v', 'i', 'e', 'w', '.', 'x', 'm', 'l']]
        ['a', '.', 'v', 'i', 'e', 'w', '.', 'x', 'm', 'l']
      = ([ui5ModelMsg envOk ctx0],
         some (envOk.diagnosticToCodeActionFix
           ['a', '.', 'v', 'i', 'e', 'w', '.', 'x', 'm', 'l'] ctx0)) :=
  ui5Model_published_on_success envOk
    [['a', '.', 'v', 'i', 'e', 'w', '.', 'x', 'm', 'l']]
    ['a', '.', 'v', 'i', 'e', 'w', '.', 'x', 'm', 'l'] ctx0
    (by decide) rfl (by decide)

/-- C10: during one revalidation pass over open documents `pre ++ d :: post`
in which every document before `d` resolves and `d` yields a context error,
the pass publishes the recomputed diagnostics of the documents before `d`,
then exactly one context-error notification, and stops: every diagnostics
message it publishes is for a document before `d` — none for `d` nor for
any document after it. -/
theorem validatePass_stops_on_contextError {δ κ η γ ε : Type}
    (env : Env δ κ η γ ε) (d : JsString) (post : List JsString) (e : ε)
    (herr : env.getContext d = CtxResult.err e) :
    ∀ pre : List JsString, (∀ p ∈ pre, isContext (env.getContext p) = true) →
    validatePass env (pre ++ d :: post)
      = pre.map (fun u => Msg.diagnostics u (diagsOf env u)) ++ [Msg.contextError e] ∧
    (validatePass env (pre ++ d :: post)).countP isCtxErrorMsg = 1 ∧
    (∀ u ds, Msg.diagnostics u ds ∈ validatePass env (pre ++ d :: post) → u ∈ pre) := by
  have hmain : ∀ pre : List JsString,
      (∀ p ∈ pre, isContext (env.getContext p) = true) →
      validatePass env (pre ++ d :: post)
        = pre.map (fun u => Msg.diagnostics u (diagsOf env u)) ++ [Msg.contextError e] := by
    intro pre
    induction pre with
    | nil => intro _; simp [validatePass, herr]
    | cons p rest ih =>
      intro hpre
      have hp := hpre p (List.mem_cons_self p rest)
      cases hc : env.getContext p with
      | err e' =>
        rw [hc] at hp
        simp [isContext] at hp
      | ok c =>
        have ih' := ih (fun x hx => hpre x (List.mem_cons_of_mem p hx))
        simp [validatePass, hc, ih', diagsOf]
  intro pre hpre
  refine ⟨hmain pre hpre, ?_, ?_⟩
  · rw [hmain pre hpre, List.countP_append]
    have h1 : (pre.map (fun u =>
        (Msg.diagnostics u (diagsOf env u) : Msg δ ε))).countP
        isCtxErrorMsg = 0 := by
      rw [List.countP_eq_zero]
      intro a ha
      obtain ⟨u, _, rfl⟩ := List.mem_map.mp ha
      simp [isCtxErrorMsg]
    simp [h1, List.countP_cons, List.countP_nil, isCtxErrorMsg]
  · intro u ds hmem
    rw [hmain pre hpre] at hmem
    rcases List.mem_append.mp hmem with hm | hm
    · obtain ⟨x, hx, hxe⟩ := List.mem_map.mp hm
      injection hxe with h1 h2
      rw [← h1]
      exact hx
    · simp at hm

/-- Witness for C10: a two-document pass in which the first document
resolves and the second fails; one diagnostics message, one error
notification, and nothing for the failing or later documents. -/
theorem validatePass_stops_on_contextError_witness :
    validatePass envMix ([['d']] ++ ['x'] :: [['y']])
      = ([['d']] : List JsString).map (fun u => Msg.diagnostics u (diagsOf envMix u))
        ++ [Msg.contextError 9] ∧
    (validatePass envMix ([['d']] ++ ['x'] :: [['y']])).countP isCtxErrorMsg = 1 ∧
    (∀ u ds, Msg.diagnostics u ds ∈ validatePass envMix ([['d']] ++ ['x'] :: [['y']])
      → u ∈ [['d']]) :=
  validatePass_stops_on_contextError envMix ['x'] [['y']] 9 rfl [['d']] (by decide)
